import Mathlib

set_option linter.unusedVariables false
set_option linter.unnecessarySimpa false

/-!
Shallow embedding of the flocker test-support core (`flocker/testtools.py`):
the fake process reactor (`FakeProcessTransport.signalProcess`,
`FakeProcessReactor.spawnProcess`, `FakeProcessReactor.timeout`), the virtual
clock the reactor is built on, and the `loop_until` polling helper.

The virtual clock operations (`scheduleAfter`, `cancel`, `advance`) are
inherited by `FakeProcessReactor` from an external `Clock` base class whose
implementation is not part of the repository sources; they are modelled from
the specification text (marked `Modelled from the spec:` below).  Everything
else is translated directly from `flocker/testtools.py`.
-/

/-- Modelled from the spec: the error taxonomy of the virtual clock.
`invalidDelay` / `invalidAdvance`: a negative duration was supplied to
scheduling or advancement. -/
inductive ClockError : Type where
  | invalidDelay : ClockError
  | invalidAdvance : ClockError
deriving DecidableEq

/-- A deep embedding of the zero-argument callbacks handed to the scheduler.
A callback may do nothing, record an observable tag, request that a further
callback be scheduled after a delay, or sequence two callback bodies.  This is
the shape of callback the drain-to-fixed-point claim quantifies over: actions
that themselves schedule new calls. -/
inductive Act : Type where
  | nop : Act
  | emit : Nat → Act
  | sched : ℚ → Act → Act
  | andThen : Act → Act → Act
deriving DecidableEq

/-- Size of a callback body, used as the termination measure of the drain. -/
def actSize : Act → Nat
  | Act.nop => 1
  | Act.emit _ => 1
  | Act.sched _ a => actSize a + 1
  | Act.andThen a b => actSize a + actSize b + 1

/-- A pending timed call of the virtual clock: target fire time, insertion
sequence number, callback body and cancellation flag. -/
structure ScheduledCall : Type where
  fireTime : ℚ
  seq : Nat
  action : Act
  cancelled : Bool
deriving DecidableEq

/-- The state of the virtual clock: current virtual time, the next insertion
sequence number, the pending calls, the ordered log of executed calls (their
`(fireTime, seq)` keys, in execution order) and the ordered log of tags
emitted by executed callbacks. -/
structure ClockState : Type where
  now : ℚ
  nextSeq : Nat
  pending : List ScheduledCall
  executed : List (ℚ × Nat)
  emitted : List Nat
deriving DecidableEq

/-- The freshly constructed virtual clock: time 0, nothing pending. -/
def initClock : ClockState := ⟨0, 0, [], [], []⟩

/-- Strict ordering of scheduled calls by their `(fireTime, seq)` key,
lexicographically. -/
def keyLt (c d : ScheduledCall) : Prop :=
  c.fireTime < d.fireTime ∨ (c.fireTime = d.fireTime ∧ c.seq < d.seq)

instance (c d : ScheduledCall) : Decidable (keyLt c d) := by
  unfold keyLt; infer_instance

/-- Non-strict ordering of `(fireTime, seq)` keys, lexicographically. -/
def pairLe (e f : ℚ × Nat) : Prop :=
  e.1 < f.1 ∨ (e.1 = f.1 ∧ e.2 ≤ f.2)

instance (e f : ℚ × Nat) : Decidable (pairLe e f) := by
  unfold pairLe; infer_instance

/-- The call with the smallest `(fireTime, seq)` key in a list, preferring the
earlier element when keys tie (keys of distinct live calls never tie, since
sequence numbers are unique). -/
def pickMin : List ScheduledCall → Option ScheduledCall
  | [] => none
  | c :: rest =>
    match pickMin rest with
    | none => some c
    | some m => if keyLt m c then some m else some c

/-- The non-cancelled pending calls that are due at or before the current
virtual time. -/
def dueList (s : ClockState) : List ScheduledCall :=
  s.pending.filter (fun c => !c.cancelled && decide (c.fireTime ≤ s.now))

/-- The non-cancelled pending calls. -/
def activeCalls (s : ClockState) : List ScheduledCall :=
  s.pending.filter (fun c => !c.cancelled)

/-- Executing a callback body against the clock: `emit` records a tag,
`sched` appends a fresh pending call at `now + delay` with the next sequence
number (a callback scheduling a negative delay would fail and is modelled as
doing nothing), `andThen` runs both bodies in order. -/
def runAct : Act → ClockState → ClockState
  | Act.nop, s => s
  | Act.emit t, s => { s with emitted := s.emitted ++ [t] }
  | Act.sched d a, s =>
      if 0 ≤ d then
        { s with
            pending := s.pending ++ [⟨s.now + d, s.nextSeq, a, false⟩],
            nextSeq := s.nextSeq + 1 }
      else s
  | Act.andThen a b, s => runAct b (runAct a s)

/-- One drain step: remove the selected call from the pending set, record it
in the executed log, then run its callback body. -/
def execCall (m : ScheduledCall) (s : ClockState) : ClockState :=
  runAct m.action
    { s with
        pending := s.pending.erase m,
        executed := s.executed ++ [(m.fireTime, m.seq)] }

/-- Total size of the pending callback bodies; strictly decreases at every
drain step, so it bounds the number of steps the drain can take. -/
def clockMeasure (s : ClockState) : Nat :=
  (s.pending.map (fun c => actSize c.action)).sum

/-- The drain loop of `advance`: repeatedly select the non-cancelled pending
call with the smallest `(fireTime, seq)` key among those due at or before
`now`, remove it and execute it, until no such call remains (the fuel is
always instantiated with `clockMeasure`, which suffices to reach the fixed
point). -/
def drain : Nat → ClockState → ClockState
  | 0, s => s
  | fuel + 1, s =>
    match pickMin (dueList s) with
    | none => s
    | some m => drain fuel (execCall m s)

/-- Modelled from the spec: `scheduleAfter(delay, action)` of the virtual
clock (`Clock.callLater` is not part of the repository sources).  Fails with
`InvalidDelay` if the delay is negative; otherwise appends a pending call at
`now + delay` with the next sequence number and returns its handle. -/
def scheduleAfter (d : ℚ) (a : Act) (s : ClockState) :
    Except ClockError (ClockState × Nat) :=
  if d < 0 then Except.error ClockError.invalidDelay
  else
    Except.ok
      ({ s with
          pending := s.pending ++ [⟨s.now + d, s.nextSeq, a, false⟩],
          nextSeq := s.nextSeq + 1 }, s.nextSeq)

/-- Modelled from the spec: cancellation of a scheduled call by handle; marks
the call cancelled, a no-op if no pending call carries the handle. -/
def cancelCall (h : Nat) (s : ClockState) : ClockState :=
  { s with
      pending := s.pending.map
        (fun c => if c.seq = h then { c with cancelled := true } else c) }

/-- Modelled from the spec: `advance(by)` of the virtual clock
(`Clock.advance` is not part of the repository sources).  Fails with
`InvalidAdvance` on a negative duration; otherwise moves `now` forward and
drains every due call to the fixed point. -/
def advance (d : ℚ) (s : ClockState) : Except ClockError ClockState :=
  if d < 0 then Except.error ClockError.invalidAdvance
  else
    Except.ok
      (drain (clockMeasure { s with now := s.now + d })
        { s with now := s.now + d })

/-- A driver operation on the virtual clock, used to quantify over every
reachable clock state. -/
inductive ClockOp : Type where
  | schedOp : ℚ → Act → ClockOp
  | cancelOp : Nat → ClockOp
  | advOp : ℚ → ClockOp

/-- Apply one driver operation; a rejected (negative-duration) operation
leaves the state unchanged. -/
def applyClockOp (s : ClockState) : ClockOp → ClockState
  | ClockOp.schedOp d a =>
    match scheduleAfter d a s with
    | Except.ok p => p.1
    | Except.error _ => s
  | ClockOp.cancelOp h => cancelCall h s
  | ClockOp.advOp d =>
    match advance d s with
    | Except.ok t => t
    | Except.error _ => s

/-- The clock state reached from the fresh clock by a sequence of driver
operations. -/
def applyClockOps (ops : List ClockOp) : ClockState :=
  ops.foldl applyClockOp initClock

/-- `FakeProcessTransport`: mock process transport recording the signals sent
to the process, in order. -/
structure FakeProcessTransport : Type where
  signals : List String
deriving DecidableEq, Inhabited

/-- `SpawnProcessArguments`: the record of one `spawnProcess` call — all nine
arguments plus the transport connected to the protocol.  Handlers (process
protocols) and transports are identified by numeric ids so that object
identity is tracked structurally. -/
structure SpawnProcessArguments : Type where
  processProtocol : Nat
  executable : String
  args : List String
  env : List (String × String)
  path : Option String
  uid : Option Nat
  gid : Option Nat
  usePTY : Bool
  childFDs : Option (List (Nat × Nat))
  transport : Nat
deriving DecidableEq, Inhabited

/-- `FakeProcessReactor`: a clock together with the transports it created
(indexed by id, in creation order), the ordered log of spawned processes and
the ordered log of `makeConnection` notifications
`(processProtocol, transport)` delivered to handlers. -/
structure FakeProcessReactor : Type where
  clock : ClockState
  transports : List FakeProcessTransport
  processes : List SpawnProcessArguments
  connectionsMade : List (Nat × Nat)
deriving DecidableEq

/-- `FakeProcessReactor.__init__`: fresh clock, no processes spawned. -/
def initialReactor : FakeProcessReactor := ⟨initClock, [], [], []⟩

/-- Point update of a list, leaving it unchanged when the index is out of
range. -/
def updateAt {α : Type} : Nat → (α → α) → List α → List α
  | _, _, [] => []
  | 0, f, x :: xs => f x :: xs
  | n + 1, f, x :: xs => x :: updateAt n f xs

/-- `FakeProcessReactor.spawnProcess`: constructs a fresh transport with an
empty signal log, appends one `SpawnProcessArguments` record capturing the
nine arguments plus that transport, synchronously notifies the protocol via
`makeConnection` with that same transport, and returns the transport.  It is
a total function: it never fails. -/
def spawnProcess (r : FakeProcessReactor) (processProtocol : Nat)
    (executable : String) (args : List String) (env : List (String × String))
    (path : Option String) (uid gid : Option Nat) (usePTY : Bool)
    (childFDs : Option (List (Nat × Nat))) : FakeProcessReactor × Nat :=
  (⟨r.clock,
    r.transports ++ [⟨[]⟩],
    r.processes ++
      [⟨processProtocol, executable, args, env, path, uid, gid, usePTY,
        childFDs, r.transports.length⟩],
    r.connectionsMade ++ [(processProtocol, r.transports.length)]⟩,
   r.transports.length)

/-- `FakeProcessTransport.signalProcess`, seen from the host: appends the
signal to the signal log of the transport with the given id. -/
def signalProcess (r : FakeProcessReactor) (tid : Nat) (sig : String) :
    FakeProcessReactor :=
  { r with
      transports :=
        updateAt tid (fun t => { t with signals := t.signals ++ [sig] })
          r.transports }

/-- `FakeProcessReactor.timeout`: 0 when no call is pending, otherwise the
earliest pending call's fire time minus the current time, clamped at 0
(the base clock keeps its call list sorted by fire time with insertion order
breaking ties and removes cancelled calls, so its head is the `pickMin` of
the non-cancelled pending calls). -/
def FakeProcessReactor.timeout (r : FakeProcessReactor) : ℚ :=
  match pickMin (activeCalls r.clock) with
  | some c => max 0 (c.fireTime - r.clock.now)
  | none => 0

/-- A driver operation on the fake process reactor. -/
inductive ReactorOp : Type where
  | spawnOp : Nat → String → List String → List (String × String) →
      Option String → Option Nat → Option Nat → Bool →
      Option (List (Nat × Nat)) → ReactorOp
  | signalOp : Nat → String → ReactorOp
  | schedOp : ℚ → Act → ReactorOp
  | cancelOp : Nat → ReactorOp
  | advOp : ℚ → ReactorOp

/-- Apply one driver operation to the reactor; clock operations only touch
the embedded clock. -/
def applyReactorOp (r : FakeProcessReactor) : ReactorOp → FakeProcessReactor
  | ReactorOp.spawnOp pp ex ar env p u g pty cfd =>
    (spawnProcess r pp ex ar env p u g pty cfd).1
  | ReactorOp.signalOp tid sig => signalProcess r tid sig
  | ReactorOp.schedOp d a => { r with clock := applyClockOp r.clock (ClockOp.schedOp d a) }
  | ReactorOp.cancelOp h => { r with clock := applyClockOp r.clock (ClockOp.cancelOp h) }
  | ReactorOp.advOp d => { r with clock := applyClockOp r.clock (ClockOp.advOp d) }

/-- Number of process records appended by one reactor operation. -/
def spawnGrowth : ReactorOp → Nat
  | ReactorOp.spawnOp _ _ _ _ _ _ _ _ _ => 1
  | _ => 0

/-- Number of entries appended to the signal log of transport `tid` by one
reactor operation. -/
def signalGrowth (r : FakeProcessReactor) (op : ReactorOp) (tid : Nat) : Nat :=
  match op with
  | ReactorOp.signalOp t _ => if t = tid ∧ tid < r.transports.length then 1 else 0
  | _ => 0

instance {ε α : Type} [DecidableEq ε] [DecidableEq α] : DecidableEq (Except ε α) := fun x y =>
  match x, y with
  | Except.ok a, Except.ok b =>
    if h : a = b then isTrue (congrArg Except.ok h)
    else isFalse (fun he => h (Except.ok.inj he))
  | Except.error a, Except.error b =>
    if h : a = b then isTrue (congrArg Except.error h)
    else isFalse (fun he => h (Except.error.inj he))
  | Except.ok _, Except.error _ => isFalse (fun he => Except.noConfusion he)
  | Except.error _, Except.ok _ => isFalse (fun he => Except.noConfusion he)

/-- The observable state of one `loop_until` call: the current virtual time,
how many times the predicate has been invoked, the outcome the returned
deferred has fired with (if any), and the fire time of the pending retry (if
one is scheduled). -/
structure PollState : Type where
  now : ℚ
  invocations : Nat
  result : Option (Except Nat Nat)
  nextRetry : Option ℚ
deriving DecidableEq

/-- One predicate check inside `loop_until` (the body of `loop` applied to a
fresh predicate result): a raised error fires the deferred with that error
and schedules nothing; a falsy result (the value 0) schedules a retry via
`deferLater(reactor, 0.1, predicate)`, i.e. exactly 0.1 time units after the
moment of the check; a truthy result fires the deferred with that value and
schedules nothing.  The predicate is a function of the invocation index. -/
def checkOnce (pred : Nat → Except Nat Nat) (s : PollState) : PollState :=
  match pred s.invocations with
  | Except.error e =>
    { s with
        invocations := s.invocations + 1,
        result := some (Except.error e),
        nextRetry := none }
  | Except.ok v =>
    if v = 0 then
      { s with
          invocations := s.invocations + 1,
          result := none,
          nextRetry := some (s.now + 1 / 10) }
    else
      { s with
          invocations := s.invocations + 1,
          result := some (Except.ok v),
          nextRetry := none }

/-- `loop_until(predicate)`: `maybeDeferred(predicate)` invokes the predicate
immediately and the `loop` callback processes the result synchronously. -/
def loop_until (pred : Nat → Except Nat Nat) : PollState :=
  checkOnce pred ⟨0, 0, none, none⟩

/-- Advancing the clock driving `loop_until` by `d`: the pending retry fires
if it is now due (a retry scheduled while draining lands strictly after the
post-advance time, so at most one retry fires per advance). -/
def pollAdvance (pred : Nat → Except Nat Nat) (d : ℚ) (s : PollState) :
    PollState :=
  match s.nextRetry with
  | some t =>
    if t ≤ s.now + d then checkOnce pred ⟨s.now + d, s.invocations, s.result, none⟩
    else { s with now := s.now + d }
  | none => { s with now := s.now + d }

/-- `n` successive advances of 0.1 time units each: exactly enough for the
`n`-th scheduled retry of `loop_until` to fire at its due time. -/
def pollSteps (pred : Nat → Except Nat Nat) : Nat → PollState → PollState
  | 0, s => s
  | n + 1, s => pollAdvance pred (1 / 10) (pollSteps pred n s)

/-- An arbitrary sequence of clock advances applied to a `loop_until`
state. -/
def advanceList (pred : Nat → Except Nat Nat) (ds : List ℚ) (s : PollState) :
    PollState :=
  ds.foldl (fun t d => pollAdvance pred d t) s

/-- A predicate that is falsy forever. -/
def predFalse : Nat → Except Nat Nat := fun _ => Except.ok 0

/-- A predicate that is falsy on its first two invocations and returns the
truthy value 7 from the third invocation on. -/
def predTwoFalsy : Nat → Except Nat Nat :=
  fun i => if i < 2 then Except.ok 0 else Except.ok 7

/-- A predicate that is truthy immediately. -/
def predTrue : Nat → Except Nat Nat := fun _ => Except.ok 7

/-- A predicate that is falsy once and then raises error 3. -/
def predOnceThenErr : Nat → Except Nat Nat :=
  fun i => if i < 1 then Except.ok 0 else Except.error 3

/-- A reactor with two transports, used as a concrete witness input. -/
def reactorTwo : FakeProcessReactor :=
  ⟨initClock, [⟨[]⟩, ⟨["TERM"]⟩], [], []⟩

/-- A reactor whose clock has one pending call at fire time 5, used as a
concrete witness input. -/
def reactorOnePending : FakeProcessReactor :=
  ⟨⟨0, 1, [⟨5, 0, Act.nop, false⟩], [], []⟩, [], [], []⟩

/-- The clock invariant maintained by every driver operation: the executed
log is sorted by `(fireTime, seq)`; executed keys fire at or before `now`
and carry sequence numbers below `nextSeq`; pending sequence numbers are
below `nextSeq`; and every executed key precedes (in the `(fireTime, seq)`
order) every non-cancelled pending call that is due at or before `now`. -/
def ClockInv (s : ClockState) : Prop :=
  List.Pairwise pairLe s.executed ∧
  (∀ e ∈ s.executed, e.1 ≤ s.now ∧ e.2 < s.nextSeq) ∧
  (∀ c ∈ s.pending, c.seq < s.nextSeq) ∧
  (∀ e ∈ s.executed, ∀ c ∈ s.pending,
    c.cancelled = false → c.fireTime ≤ s.now → pairLe e (c.fireTime, c.seq))

/-- A concrete driver script for the clock, used as a witness input. -/
def clockWitOps : List ClockOp := [ClockOp.schedOp 0 (Act.emit 5)]

/-- The clock state produced by advancing the witness script's clock by 0. -/
def clockWitState : ClockState :=
  drain
    (clockMeasure
      { applyClockOps clockWitOps with
          now := (applyClockOps clockWitOps).now + 0 })
    { applyClockOps clockWitOps with
        now := (applyClockOps clockWitOps).now + 0 }

/-! Helper lemmas about list indexing and point updates. -/

lemma getD_oob {α : Type} (l : List α) (i : Nat) (d : α) (h : l.length ≤ i) :
    l.getD i d = d := by
  induction l generalizing i with
  | nil => simp [List.getD]
  | cons x xs ih =>
    cases i with
    | zero => simp at h
    | succ j =>
      simp only [List.getD_cons_succ]
      exact ih j (by simpa using h)

lemma getD_append_lt {α : Type} (l l' : List α) (i : Nat) (d : α)
    (h : i < l.length) : (l ++ l').getD i d = l.getD i d := by
  induction l generalizing i with
  | nil => simp at h
  | cons x xs ih =>
    cases i with
    | zero => simp
    | succ j =>
      simp only [List.cons_append, List.getD_cons_succ]
      exact ih j (by simpa using h)

lemma getD_concat_self {α : Type} (l : List α) (x : α) (d : α) :
    (l ++ [x]).getD l.length d = x := by
  induction l with
  | nil => simp
  | cons y ys ih => simpa using ih

lemma updateAt_length {α : Type} (n : Nat) (f : α → α) (l : List α) :
    (updateAt n f l).length = l.length := by
  induction l generalizing n with
  | nil => cases n <;> rfl
  | cons x xs ih =>
    cases n with
    | zero => rfl
    | succ m => simpa [updateAt] using ih m

lemma updateAt_oob {α : Type} (n : Nat) (f : α → α) (l : List α)
    (h : l.length ≤ n) : updateAt n f l = l := by
  induction l generalizing n with
  | nil => cases n <;> rfl
  | cons x xs ih =>
    cases n with
    | zero => simp at h
    | succ m =>
      simp only [updateAt]
      rw [ih m (by simpa using h)]

lemma getD_updateAt_self {α : Type} (n : Nat) (f : α → α) (l : List α)
    (d : α) (h : n < l.length) :
    (updateAt n f l).getD n d = f (l.getD n d) := by
  induction l generalizing n with
  | nil => simp at h
  | cons x xs ih =>
    cases n with
    | zero => rfl
    | succ m =>
      simp only [updateAt, List.getD_cons_succ]
      exact ih m (by simpa using h)

lemma getD_updateAt_ne {α : Type} (n m : Nat) (f : α → α) (l : List α)
    (d : α) (h : n ≠ m) : (updateAt n f l).getD m d = l.getD m d := by
  induction l generalizing n m with
  | nil => cases n <;> rfl
  | cons x xs ih =>
    cases n with
    | zero =>
      cases m with
      | zero => exact absurd rfl h
      | succ k => rfl
    | succ j =>
      cases m with
      | zero => rfl
      | succ k =>
        simp only [updateAt, List.getD_cons_succ]
        exact ih j k (fun he => h (by rw [he]))

/-! Helper lemmas about the key order and `pickMin`. -/

lemma keyLt_irrefl (c : ScheduledCall) : ¬ keyLt c c := by
  simp [keyLt]

lemma keyLt_asymm {a b : ScheduledCall} (h : keyLt a b) : ¬ keyLt b a := by
  unfold keyLt at h ⊢
  rcases h with h | ⟨he, hs⟩
  · rintro (h' | ⟨he', hs'⟩)
    · exact absurd h' (lt_asymm h)
    · rw [he'] at h; exact lt_irrefl _ h
  · rintro (h' | ⟨he', hs'⟩)
    · rw [he] at h'; exact lt_irrefl _ h'
    · omega

lemma keyLt_negtrans {x m c : ScheduledCall} (h1 : ¬ keyLt x m)
    (h2 : ¬ keyLt m c) : ¬ keyLt x c := by
  unfold keyLt at h1 h2 ⊢
  push_neg at h1 h2
  rintro (h | ⟨he, hs⟩)
  · have hcm : c.fireTime ≤ m.fireTime := h2.1
    have hmx : m.fireTime ≤ x.fireTime := h1.1
    linarith
  · have hcm : c.fireTime ≤ m.fireTime := h2.1
    have hmx : m.fireTime ≤ x.fireTime := h1.1
    have hxm : x.fireTime = m.fireTime := by linarith
    have hmc : m.fireTime = c.fireTime := by linarith
    have hs1 := h1.2 hxm
    have hs2 := h2.2 hmc
    omega

lemma pickMin_eq_none_iff (l : List ScheduledCall) :
    pickMin l = none ↔ l = [] := by
  cases l with
  | nil => simp [pickMin]
  | cons c rest =>
    simp only [pickMin]
    cases h : pickMin rest with
    | none => simp
    | some m =>
      constructor
      · intro he
        by_cases hk : keyLt m c <;> simp [hk] at he
      · intro he; exact absurd he (List.cons_ne_nil c rest)

lemma pickMin_mem : ∀ {l : List ScheduledCall} {m : ScheduledCall},
    pickMin l = some m → m ∈ l := by
  intro l
  induction l with
  | nil => intro m h; simp [pickMin] at h
  | cons c rest ih =>
    intro m h
    cases hr : pickMin rest with
    | none =>
      simp only [pickMin, hr, Option.some.injEq] at h
      rw [← h]
      exact List.mem_cons_self c rest
    | some m' =>
      simp only [pickMin, hr] at h
      by_cases hk : keyLt m' c
      · rw [if_pos hk] at h
        injection h with h'
        rw [← h']
        exact List.mem_cons_of_mem c (ih hr)
      · rw [if_neg hk] at h
        injection h with h'
        rw [← h']
        exact List.mem_cons_self c rest

lemma pickMin_min : ∀ {l : List ScheduledCall} {m : ScheduledCall},
    pickMin l = some m → ∀ x ∈ l, ¬ keyLt x m := by
  intro l
  induction l with
  | nil => intro m h; simp [pickMin] at h
  | cons c rest ih =>
    intro m h
    cases hr : pickMin rest with
    | none =>
      simp only [pickMin, hr, Option.some.injEq] at h
      have hrest : rest = [] := (pickMin_eq_none_iff rest).mp hr
      subst hrest
      intro x hx
      rw [List.mem_singleton] at hx
      subst hx
      rw [← h]
      exact keyLt_irrefl x
    | some m' =>
      simp only [pickMin, hr] at h
      by_cases hk : keyLt m' c
      · rw [if_pos hk] at h
        injection h with h'
        intro x hx
        rw [← h']
        rcases List.mem_cons.mp hx with hx2 | hx2
        · rw [hx2]; exact keyLt_asymm hk
        · exact ih hr x hx2
      · rw [if_neg hk] at h
        injection h with h'
        intro x hx
        rw [← h']
        rcases List.mem_cons.mp hx with hx2 | hx2
        · rw [hx2]; exact keyLt_irrefl c
        · exact keyLt_negtrans (ih hr x hx2) hk

lemma pickMin_fireTime_le {l : List ScheduledCall} {m : ScheduledCall}
    (h : pickMin l = some m) : ∀ x ∈ l, m.fireTime ≤ x.fireTime := by
  intro x hx
  exact le_of_not_lt (fun hlt => pickMin_min h x hx (Or.inl hlt))

/-- C4: for every negative delay, `scheduleAfter` fails with `InvalidDelay`,
and for every negative duration, `advance` fails with `InvalidAdvance`; the
rejection is immediate and, since both operations return an error instead of
a new state, the caller's clock state (`now`, pending set) is unchanged. -/
theorem scheduleAfter_advance_reject_negative (d : ℚ) (a : Act)
    (s : ClockState) (hd : d < 0) :
    scheduleAfter d a s = Except.error ClockError.invalidDelay ∧
    advance d s = Except.error ClockError.invalidAdvance :=
  ⟨by simp [scheduleAfter, hd], by simp [advance, hd]⟩

theorem scheduleAfter_advance_reject_negative_witness :
    (-1 : ℚ) < 0 ∧
    advance (-1) initClock = Except.error ClockError.invalidAdvance :=
  ⟨by norm_num,
   (scheduleAfter_advance_reject_negative (-1) Act.nop initClock
     (by norm_num)).2⟩

/-- C1: `spawnProcess` never fails (it is a total function); it constructs a
fresh transport, appends exactly one record capturing all nine inputs plus
that transport to the host's ordered log, appends exactly one
`makeConnection` notification for the handler with that same transport, and
returns that same transport; concretely,
`spawn(handler, "echo", ["hi"], {}, "/tmp", 0, 0, false, None)` yields a log
of length 1 whose entry has executable `"echo"` and arguments `["hi"]`. -/
theorem spawnProcess_records_and_notifies :
    (∀ (r : FakeProcessReactor) (pp : Nat) (ex : String) (ar : List String)
       (env : List (String × String)) (p : Option String) (u g : Option Nat)
       (pty : Bool) (cfd : Option (List (Nat × Nat))),
      (spawnProcess r pp ex ar env p u g pty cfd).2 = r.transports.length ∧
      (spawnProcess r pp ex ar env p u g pty cfd).1.processes =
        r.processes ++
          [⟨pp, ex, ar, env, p, u, g, pty, cfd, r.transports.length⟩] ∧
      (spawnProcess r pp ex ar env p u g pty cfd).1.transports =
        r.transports ++ [⟨[]⟩] ∧
      (spawnProcess r pp ex ar env p u g pty cfd).1.connectionsMade =
        r.connectionsMade ++ [(pp, r.transports.length)]) ∧
    (spawnProcess initialReactor 0 "echo" ["hi"] [] (some "/tmp") (some 0)
        (some 0) false none).1.processes.length = 1 ∧
    ((spawnProcess initialReactor 0 "echo" ["hi"] [] (some "/tmp") (some 0)
        (some 0) false none).1.processes.getD 0 default).executable =
      "echo" ∧
    ((spawnProcess initialReactor 0 "echo" ["hi"] [] (some "/tmp") (some 0)
        (some 0) false none).1.processes.getD 0 default).args = ["hi"] :=
  ⟨fun r pp ex ar env p u g pty cfd => ⟨rfl, rfl, rfl, rfl⟩, rfl, rfl, rfl⟩

/-- C2: for a transport id in range, `signalProcess` appends exactly the
given signal to that transport's signal log, leaves every other transport's
log untouched, preserves the number of transports and the process log; and
the transport returned by any `spawnProcess` call is in range for the
resulting reactor. -/
theorem signalProcess_appends_and_frames (r : FakeProcessReactor) (tid : Nat)
    (sig : String) (h : tid < r.transports.length) :
    ((signalProcess r tid sig).transports.getD tid default).signals =
      (r.transports.getD tid default).signals ++ [sig] ∧
    (∀ j, j ≠ tid →
      (signalProcess r tid sig).transports.getD j default =
        r.transports.getD j default) ∧
    (signalProcess r tid sig).transports.length = r.transports.length ∧
    (signalProcess r tid sig).processes = r.processes ∧
    (∀ (r0 : FakeProcessReactor) (pp : Nat) (ex : String) (ar : List String)
       (env : List (String × String)) (p : Option String) (u g : Option Nat)
       (pty : Bool) (cfd : Option (List (Nat × Nat))),
      (spawnProcess r0 pp ex ar env p u g pty cfd).2 <
        (spawnProcess r0 pp ex ar env p u g pty cfd).1.transports.length) := by
  refine ⟨?_, ?_, ?_, rfl, ?_⟩
  · simp only [signalProcess]
    rw [getD_updateAt_self tid _ r.transports default h]
  · intro j hj
    simp only [signalProcess]
    exact getD_updateAt_ne tid j _ r.transports default (Ne.symm hj)
  · simp only [signalProcess]
    exact updateAt_length tid _ r.transports
  · intro r0 pp ex ar env p u g pty cfd
    simp [spawnProcess]

theorem signalProcess_appends_and_frames_witness :
    0 < reactorTwo.transports.length ∧
    ((signalProcess reactorTwo 0 "KILL").transports.getD 0 default).signals =
      (reactorTwo.transports.getD 0 default).signals ++ ["KILL"] :=
  ⟨by decide,
   (signalProcess_appends_and_frames reactorTwo 0 "KILL" (by decide)).1⟩

/-- C9: `timeout` is never negative; it returns 0 when no call is pending,
and otherwise returns the maximum of 0 and the earliest pending call's fire
time minus the current virtual time. -/
theorem timeout_nonneg_earliest (r : FakeProcessReactor) :
    0 ≤ r.timeout ∧
    (activeCalls r.clock = [] → r.timeout = 0) ∧
    (activeCalls r.clock ≠ [] →
      ∃ m, m ∈ activeCalls r.clock ∧
        (∀ x ∈ activeCalls r.clock, m.fireTime ≤ x.fireTime) ∧
        r.timeout = max 0 (m.fireTime - r.clock.now)) := by
  cases h : pickMin (activeCalls r.clock) with
  | none =>
    have he : activeCalls r.clock = [] := (pickMin_eq_none_iff _).mp h
    refine ⟨?_, fun _ => ?_, fun hne => absurd he hne⟩ <;>
      simp [FakeProcessReactor.timeout, h]
  | some m =>
    refine ⟨?_, fun hemp => ?_,
      fun _ => ⟨m, pickMin_mem h, pickMin_fireTime_le h, ?_⟩⟩
    · simp only [FakeProcessReactor.timeout, h]
      exact le_max_left 0 _
    · rw [hemp] at h; simp [pickMin] at h
    · simp only [FakeProcessReactor.timeout, h]

theorem timeout_nonneg_earliest_witness :
    activeCalls reactorOnePending.clock ≠ [] ∧
    (∃ m, m ∈ activeCalls reactorOnePending.clock ∧
      (∀ x ∈ activeCalls reactorOnePending.clock, m.fireTime ≤ x.fireTime) ∧
      reactorOnePending.timeout =
        max 0 (m.fireTime - reactorOnePending.clock.now)) :=
  ⟨by decide, (timeout_nonneg_earliest reactorOnePending).2.2 (by decide)⟩

/-- C10: a fresh reactor has an empty process log; every transport is
created with an empty signal log; across every reactor operation the process
log only ever grows by appending (exactly one record per spawn, none
otherwise) and each transport's signal log only ever grows by appending
(exactly one entry per signal addressed to it, none otherwise) — so no
operation removes or reorders entries in either log. -/
theorem reactor_logs_append_only :
    initialReactor.processes = [] ∧
    initialReactor.transports = [] ∧
    (∀ (r : FakeProcessReactor) (pp : Nat) (ex : String) (ar : List String)
       (env : List (String × String)) (p : Option String) (u g : Option Nat)
       (pty : Bool) (cfd : Option (List (Nat × Nat))),
      (spawnProcess r pp ex ar env p u g pty cfd).1.transports =
        r.transports ++ [⟨[]⟩]) ∧
    (∀ (r : FakeProcessReactor) (op : ReactorOp), ∃ t,
      (applyReactorOp r op).processes = r.processes ++ t ∧
      t.length = spawnGrowth op) ∧
    (∀ (r : FakeProcessReactor) (op : ReactorOp) (tid : Nat), ∃ u,
      ((applyReactorOp r op).transports.getD tid default).signals =
        (r.transports.getD tid default).signals ++ u ∧
      u.length = signalGrowth r op tid) := by
  refine ⟨rfl, rfl, fun r pp ex ar env p u g pty cfd => rfl, ?_, ?_⟩
  · intro r op
    cases op with
    | spawnOp pp ex ar env p u g pty cfd =>
      exact ⟨[⟨pp, ex, ar, env, p, u, g, pty, cfd, r.transports.length⟩],
        rfl, rfl⟩
    | signalOp tid sig => exact ⟨[], by rw [List.append_nil]; rfl, rfl⟩
    | schedOp d a => exact ⟨[], by rw [List.append_nil]; rfl, rfl⟩
    | cancelOp hh => exact ⟨[], by rw [List.append_nil]; rfl, rfl⟩
    | advOp d => exact ⟨[], by rw [List.append_nil]; rfl, rfl⟩
  · intro r op tid
    cases op with
    | spawnOp pp ex ar env p u g pty cfd =>
      refine ⟨[], ?_, rfl⟩
      rw [List.append_nil]
      show ((r.transports ++ [FakeProcessTransport.mk []]).getD tid
          default).signals =
        (r.transports.getD tid default).signals
      by_cases h1 : tid < r.transports.length
      · rw [getD_append_lt r.transports _ tid default h1]
      · by_cases h2 : tid = r.transports.length
        · subst h2
          rw [getD_concat_self,
            getD_oob r.transports r.transports.length default (le_refl _)]
          rfl
        · rw [getD_oob (r.transports ++ [FakeProcessTransport.mk []]) tid
              default (by simp; omega),
            getD_oob r.transports tid default (by omega)]
    | signalOp t sg =>
      by_cases hc : t = tid ∧ tid < r.transports.length
      · obtain ⟨he, hlt⟩ := hc
        subst he
        refine ⟨[sg], ?_, ?_⟩
        · simp only [applyReactorOp, signalProcess]
          rw [getD_updateAt_self t _ r.transports default hlt]
        · simp [signalGrowth, hlt]
      · refine ⟨[], ?_, ?_⟩
        · rw [List.append_nil]
          simp only [applyReactorOp, signalProcess]
          by_cases he : t = tid
          · subst he
            have hge : r.transports.length ≤ t := by
              rcases Nat.lt_or_ge t r.transports.length with h1 | h1
              · exact absurd ⟨rfl, h1⟩ hc
              · exact h1
            rw [updateAt_oob t _ r.transports hge]
          · rw [getD_updateAt_ne t tid _ r.transports default he]
        · simp [signalGrowth, hc]
    | schedOp d a => exact ⟨[], by rw [List.append_nil]; rfl, rfl⟩
    | cancelOp hh => exact ⟨[], by rw [List.append_nil]; rfl, rfl⟩
    | advOp d => exact ⟨[], by rw [List.append_nil]; rfl, rfl⟩

/-- C7, counterexample: the claim says the retry is scheduled after exactly
the caller-supplied `interval`; but `loop_until` accepts no interval
argument, and on a falsy first check it schedules the retry 1/10 of a time
unit later — not 1 time unit later, although the specification's polling
scenario supplies `interval = 1`. -/
theorem loopUntil_interval_counterexample :
    (loop_until predFalse).nextRetry = some ((1 : ℚ) / 10) ∧
    ((1 : ℚ) / 10) ≠ 1 := by
  constructor
  · show some ((0 : ℚ) + 1 / 10) = some ((1 : ℚ) / 10)
    norm_num
  · norm_num

/-- C7, amended: for every predicate whose current invocation returns a
falsy result, `loop_until` schedules the retry to occur exactly 0.1
virtual-time units after the moment of the check, via the reactor's
`callLater` scheduling primitive (`deferLater(reactor, 0.1, predicate)`);
the period is fixed at 0.1 because `loop_until` takes no interval
parameter. -/
theorem loopUntil_retry_after_tenth (pred : Nat → Except Nat Nat)
    (s : PollState) (h : pred s.invocations = Except.ok 0) :
    (checkOnce pred s).nextRetry = some (s.now + 1 / 10) ∧
    (checkOnce pred s).result = none := by
  constructor <;> simp [checkOnce, h]

theorem loopUntil_retry_after_tenth_witness :
    predFalse 0 = Except.ok 0 ∧
    (checkOnce predFalse ⟨0, 0, none, none⟩).nextRetry =
      some ((0 : ℚ) + 1 / 10) :=
  ⟨rfl, (loopUntil_retry_after_tenth predFalse ⟨0, 0, none, none⟩ rfl).1⟩

/-! Helper lemmas about `loop_until` driven by clock advances. -/

lemma advanceList_no_retry (pred : Nat → Except Nat Nat) (ds : List ℚ) :
    ∀ s : PollState, s.nextRetry = none →
      (advanceList pred ds s).result = s.result ∧
      (advanceList pred ds s).invocations = s.invocations ∧
      (advanceList pred ds s).nextRetry = none := by
  induction ds with
  | nil => intro s h; exact ⟨rfl, rfl, h⟩
  | cons d rest ih =>
    intro s h
    have hstep : pollAdvance pred d s = { s with now := s.now + d } := by
      simp only [pollAdvance, h]
    have hfold : advanceList pred (d :: rest) s =
        advanceList pred rest (pollAdvance pred d s) := rfl
    rw [hfold, hstep]
    exact ih { s with now := s.now + d } h

lemma checkOnce_falsy (pred : Nat → Except Nat Nat) (s : PollState)
    (h : pred s.invocations = Except.ok 0) :
    checkOnce pred s =
      ⟨s.now, s.invocations + 1, none, some (s.now + 1 / 10)⟩ := by
  simp [checkOnce, h]

lemma checkOnce_truthy (pred : Nat → Except Nat Nat) (s : PollState)
    (v : Nat) (h : pred s.invocations = Except.ok v) (hv : v ≠ 0) :
    checkOnce pred s =
      ⟨s.now, s.invocations + 1, some (Except.ok v), none⟩ := by
  simp [checkOnce, h, hv]

lemma checkOnce_error (pred : Nat → Except Nat Nat) (s : PollState)
    (e : Nat) (h : pred s.invocations = Except.error e) :
    checkOnce pred s =
      ⟨s.now, s.invocations + 1, some (Except.error e), none⟩ := by
  simp [checkOnce, h]

lemma pollSteps_falsy (pred : Nat → Except Nat Nat) :
    ∀ j : Nat, (∀ i, i ≤ j → pred i = Except.ok 0) →
    pollSteps pred j (loop_until pred) =
      ⟨(j : ℚ) / 10, j + 1, none, some (((j : ℚ) + 1) / 10)⟩ := by
  intro j
  induction j with
  | zero =>
    intro h
    have h0 := h 0 (le_refl 0)
    show checkOnce pred ⟨0, 0, none, none⟩ = _
    rw [checkOnce_falsy pred ⟨0, 0, none, none⟩ h0]
    simp only [PollState.mk.injEq, Option.some.injEq]
    norm_num
  | succ j ih =>
    intro h
    have hmid := ih (fun i hi => h i (le_trans hi (Nat.le_succ j)))
    show pollAdvance pred (1 / 10) (pollSteps pred j (loop_until pred)) = _
    rw [hmid]
    simp only [pollAdvance]
    rw [if_pos (le_of_eq (add_div (j : ℚ) 1 10))]
    have hj1 := h (j + 1) (le_refl (j + 1))
    rw [checkOnce_falsy pred
      ⟨(j : ℚ) / 10 + 1 / 10, j + 1, none, none⟩ hj1]
    have hnow : (j : ℚ) / 10 + 1 / 10 = ((j + 1 : Nat) : ℚ) / 10 := by
      push_cast; ring
    have hretry : ((j + 1 : Nat) : ℚ) / 10 + 1 / 10 =
        (((j + 1 : Nat) : ℚ) + 1) / 10 := by
      push_cast; ring
    show (⟨(j : ℚ) / 10 + 1 / 10, j + 1 + 1, none,
        some ((j : ℚ) / 10 + 1 / 10 + 1 / 10)⟩ : PollState) = _
    rw [hnow, hretry]

lemma pollAdvance_fire_step (pred : Nat → Except Nat Nat) (j : Nat) :
    pollAdvance pred (1 / 10)
        ⟨(j : ℚ) / 10, j + 1, none, some (((j : ℚ) + 1) / 10)⟩ =
      checkOnce pred ⟨(j : ℚ) / 10 + 1 / 10, j + 1, none, none⟩ := by
  simp only [pollAdvance]
  rw [if_pos (le_of_eq (add_div (j : ℚ) 1 10))]

/-- C5: `loop_until` invokes the predicate immediately within the call, and
if that first invocation returns a truthy value, the returned deferred is
resolved synchronously with exactly that value, no retry is scheduled, and
no amount of later clock advancing ever invokes the predicate again or
changes the result. -/
theorem loopUntil_first_truthy (pred : Nat → Except Nat Nat) (v : Nat)
    (h0 : pred 0 = Except.ok v) (hv : v ≠ 0) :
    (loop_until pred).result = some (Except.ok v) ∧
    (loop_until pred).invocations = 1 ∧
    (loop_until pred).nextRetry = none ∧
    ∀ ds : List ℚ,
      (advanceList pred ds (loop_until pred)).result =
        some (Except.ok v) ∧
      (advanceList pred ds (loop_until pred)).invocations = 1 := by
  have hstate : loop_until pred = ⟨0, 1, some (Except.ok v), none⟩ :=
    checkOnce_truthy pred ⟨0, 0, none, none⟩ v h0 hv
  rw [hstate]
  refine ⟨rfl, rfl, rfl, fun ds => ?_⟩
  obtain ⟨h1, h2, _⟩ :=
    advanceList_no_retry pred ds ⟨0, 1, some (Except.ok v), none⟩ rfl
  exact ⟨h1, h2⟩

theorem loopUntil_first_truthy_witness :
    predTrue 0 = Except.ok 7 ∧ (7 : Nat) ≠ 0 ∧
    (loop_until predTrue).result = some (Except.ok 7) :=
  ⟨rfl, by norm_num,
   (loopUntil_first_truthy predTrue 7 rfl (by norm_num)).1⟩

/-- C6: for every `k ≥ 0` and every predicate returning a falsy result on
each of its first `k` invocations and a truthy value on invocation `k + 1`,
after the `k` scheduled retries have fired the deferred returned by
`loop_until` is resolved with that truthy value, and the predicate has been
invoked exactly `k + 1` times. -/
theorem loopUntil_falsy_k_then_truthy (pred : Nat → Except Nat Nat)
    (k v : Nat) (hf : ∀ i, i < k → pred i = Except.ok 0)
    (hk : pred k = Except.ok v) (hv : v ≠ 0) :
    (pollSteps pred k (loop_until pred)).result = some (Except.ok v) ∧
    (pollSteps pred k (loop_until pred)).invocations = k + 1 := by
  cases k with
  | zero =>
    have hstate : loop_until pred = ⟨0, 1, some (Except.ok v), none⟩ :=
      checkOnce_truthy pred ⟨0, 0, none, none⟩ v hk hv
    show (loop_until pred).result = _ ∧ (loop_until pred).invocations = _
    rw [hstate]
    exact ⟨rfl, rfl⟩
  | succ j =>
    have hmid := pollSteps_falsy pred j
      (fun i hi => hf i (Nat.lt_succ_of_le hi))
    simp only [pollSteps]
    rw [hmid, pollAdvance_fire_step pred j]
    rw [checkOnce_truthy pred ⟨(j : ℚ) / 10 + 1 / 10, j + 1, none, none⟩
      v hk hv]
    exact ⟨rfl, rfl⟩

theorem loopUntil_falsy_k_then_truthy_witness :
    (∀ i, i < 2 → predTwoFalsy i = Except.ok 0) ∧
    predTwoFalsy 2 = Except.ok 7 ∧ (7 : Nat) ≠ 0 ∧
    (pollSteps predTwoFalsy 2 (loop_until predTwoFalsy)).result =
      some (Except.ok 7) ∧
    (pollSteps predTwoFalsy 2 (loop_until predTwoFalsy)).invocations = 3 :=
  ⟨by decide, rfl, by norm_num,
   (loopUntil_falsy_k_then_truthy predTwoFalsy 2 7 (by decide) rfl
     (by norm_num)).1,
   (loopUntil_falsy_k_then_truthy predTwoFalsy 2 7 (by decide) rfl
     (by norm_num)).2⟩

/-- C8: if an invocation of the predicate raises an error, the deferred
returned by `loop_until` fails with that same error, no retry is scheduled,
and no amount of later clock advancing ever invokes the predicate again or
changes the failure. -/
theorem loopUntil_error_stops (pred : Nat → Except Nat Nat) (k e : Nat)
    (hf : ∀ i, i < k → pred i = Except.ok 0)
    (hk : pred k = Except.error e) :
    (pollSteps pred k (loop_until pred)).result = some (Except.error e) ∧
    (pollSteps pred k (loop_until pred)).invocations = k + 1 ∧
    (pollSteps pred k (loop_until pred)).nextRetry = none ∧
    ∀ ds : List ℚ,
      (advanceList pred ds (pollSteps pred k (loop_until pred))).result =
        some (Except.error e) ∧
      (advanceList pred ds
          (pollSteps pred k (loop_until pred))).invocations = k + 1 := by
  have hmain : (pollSteps pred k (loop_until pred)).result =
        some (Except.error e) ∧
      (pollSteps pred k (loop_until pred)).invocations = k + 1 ∧
      (pollSteps pred k (loop_until pred)).nextRetry = none := by
    cases k with
    | zero =>
      have hstate : loop_until pred = ⟨0, 1, some (Except.error e), none⟩ :=
        checkOnce_error pred ⟨0, 0, none, none⟩ e hk
      show (loop_until pred).result = _ ∧
        (loop_until pred).invocations = _ ∧ (loop_until pred).nextRetry = _
      rw [hstate]
      exact ⟨rfl, rfl, rfl⟩
    | succ j =>
      have hmid := pollSteps_falsy pred j
        (fun i hi => hf i (Nat.lt_succ_of_le hi))
      simp only [pollSteps]
      rw [hmid, pollAdvance_fire_step pred j]
      rw [checkOnce_error pred ⟨(j : ℚ) / 10 + 1 / 10, j + 1, none, none⟩
        e hk]
      exact ⟨rfl, rfl, rfl⟩
  obtain ⟨h1, h2, h3⟩ := hmain
  refine ⟨h1, h2, h3, fun ds => ?_⟩
  obtain ⟨g1, g2, _⟩ :=
    advanceList_no_retry pred ds (pollSteps pred k (loop_until pred)) h3
  exact ⟨by rw [g1, h1], by rw [g2, h2]⟩

theorem loopUntil_error_stops_witness :
    (∀ i, i < 1 → predOnceThenErr i = Except.ok 0) ∧
    predOnceThenErr 1 = Except.error 3 ∧
    (pollSteps predOnceThenErr 1 (loop_until predOnceThenErr)).result =
      some (Except.error 3) :=
  ⟨by decide, rfl,
   (loopUntil_error_stops predOnceThenErr 1 3 (by decide) rfl).1⟩

/-! Helper lemmas about callback execution and the drain measure. -/

lemma actSize_pos (a : Act) : 1 ≤ actSize a := by
  cases a <;> simp [actSize]

lemma mem_dueList (s : ClockState) (c : ScheduledCall) :
    c ∈ dueList s ↔
      c ∈ s.pending ∧ c.cancelled = false ∧ c.fireTime ≤ s.now := by
  simp [dueList, List.mem_filter, and_assoc]

lemma runAct_now (a : Act) : ∀ s : ClockState, (runAct a s).now = s.now := by
  induction a with
  | nop => intro s; rfl
  | emit t => intro s; rfl
  | sched d a ih =>
    intro s
    simp only [runAct]
    split <;> rfl
  | andThen a b iha ihb =>
    intro s
    simp only [runAct]
    rw [ihb, iha]

lemma runAct_executed (a : Act) :
    ∀ s : ClockState, (runAct a s).executed = s.executed := by
  induction a with
  | nop => intro s; rfl
  | emit t => intro s; rfl
  | sched d a ih =>
    intro s
    simp only [runAct]
    split <;> rfl
  | andThen a b iha ihb =>
    intro s
    simp only [runAct]
    rw [ihb, iha]

lemma runAct_nextSeq_le (a : Act) :
    ∀ s : ClockState, s.nextSeq ≤ (runAct a s).nextSeq := by
  induction a with
  | nop => intro s; exact le_refl _
  | emit t => intro s; exact le_refl _
  | sched d a ih =>
    intro s
    simp only [runAct]
    split
    · exact Nat.le_succ _
    · exact le_refl _
  | andThen a b iha ihb =>
    intro s
    exact le_trans (iha s) (ihb (runAct a s))

lemma runAct_pending_super (a : Act) :
    ∀ (s : ClockState) (c : ScheduledCall),
      c ∈ s.pending → c ∈ (runAct a s).pending := by
  induction a with
  | nop => intro s c h; exact h
  | emit t => intro s c h; exact h
  | sched d a ih =>
    intro s c h
    simp only [runAct]
    split
    · exact List.mem_append_left _ h
    · exact h
  | andThen a b iha ihb =>
    intro s c h
    exact ihb (runAct a s) c (iha s c h)

lemma runAct_pending_cases (a : Act) :
    ∀ (s : ClockState) (c : ScheduledCall), c ∈ (runAct a s).pending →
      c ∈ s.pending ∨
        (s.nextSeq ≤ c.seq ∧ s.now ≤ c.fireTime ∧ c.cancelled = false) := by
  induction a with
  | nop => intro s c h; exact Or.inl h
  | emit t => intro s c h; exact Or.inl h
  | sched d a ih =>
    intro s c h
    simp only [runAct] at h
    by_cases hd : 0 ≤ d
    · rw [if_pos hd] at h
      rcases List.mem_append.mp h with h1 | h1
      · exact Or.inl h1
      · rw [List.mem_singleton] at h1
        subst h1
        exact Or.inr ⟨le_refl _, le_add_of_nonneg_right hd, rfl⟩
    · rw [if_neg hd] at h
      exact Or.inl h
  | andThen a b iha ihb =>
    intro s c h
    rcases ihb (runAct a s) c h with h1 | h1
    · exact iha s c h1
    · rw [runAct_now a s] at h1
      exact Or.inr ⟨le_trans (runAct_nextSeq_le a s) h1.1, h1.2.1, h1.2.2⟩

lemma runAct_seq_bound (a : Act) :
    ∀ s : ClockState, (∀ c ∈ s.pending, c.seq < s.nextSeq) →
      ∀ c ∈ (runAct a s).pending, c.seq < (runAct a s).nextSeq := by
  induction a with
  | nop => intro s hs c hc; exact hs c hc
  | emit t => intro s hs c hc; exact hs c hc
  | sched d a ih =>
    intro s hs c hc
    simp only [runAct] at hc ⊢
    by_cases hd : 0 ≤ d
    · rw [if_pos hd] at hc ⊢
      show c.seq < s.nextSeq + 1
      rcases List.mem_append.mp hc with h1 | h1
      · have := hs c h1
        omega
      · rw [List.mem_singleton] at h1
        subst h1
        exact Nat.lt_succ_self _
    · rw [if_neg hd] at hc ⊢
      exact hs c hc
  | andThen a b iha ihb =>
    intro s hs
    exact ihb (runAct a s) (iha s hs)

lemma runAct_measure (a : Act) :
    ∀ s : ClockState,
      clockMeasure (runAct a s) + 1 ≤ clockMeasure s + actSize a := by
  induction a with
  | nop => intro s; exact le_refl _
  | emit t => intro s; exact le_refl _
  | sched d a ih =>
    intro s
    simp only [runAct, actSize]
    by_cases hd : 0 ≤ d
    · rw [if_pos hd]
      have hmeq : clockMeasure
          { s with
              pending := s.pending ++ [⟨s.now + d, s.nextSeq, a, false⟩],
              nextSeq := s.nextSeq + 1 } = clockMeasure s + actSize a := by
        simp [clockMeasure]
      rw [hmeq]
      omega
    · rw [if_neg hd]
      omega
  | andThen a b iha ihb =>
    intro s
    have h1 := iha s
    have h2 := ihb (runAct a s)
    simp only [runAct, actSize]
    omega

lemma sum_map_erase (l : List ScheduledCall) (m : ScheduledCall)
    (hm : m ∈ l) :
    ((l.erase m).map (fun c => actSize c.action)).sum + actSize m.action =
      (l.map (fun c => actSize c.action)).sum := by
  have hp : l.Perm (m :: l.erase m) := List.perm_cons_erase hm
  have h2 := (hp.map (fun c => actSize c.action)).sum_eq
  rw [List.map_cons, List.sum_cons] at h2
  omega

lemma clockMeasure_execCall_lt (s : ClockState) (m : ScheduledCall)
    (hm : pickMin (dueList s) = some m) :
    clockMeasure (execCall m s) < clockMeasure s := by
  have hmem : m ∈ s.pending := ((mem_dueList s m).mp (pickMin_mem hm)).1
  have h1 := runAct_measure m.action
    { s with pending := s.pending.erase m,
             executed := s.executed ++ [(m.fireTime, m.seq)] }
  have h2 := sum_map_erase s.pending m hmem
  simp only [execCall, clockMeasure] at h1 ⊢
  omega

/-! Helper lemmas about the drain loop. -/

lemma drain_now (fuel : Nat) :
    ∀ s : ClockState, (drain fuel s).now = s.now := by
  induction fuel with
  | zero => intro s; rfl
  | succ n ih =>
    intro s
    simp only [drain]
    cases h : pickMin (dueList s) with
    | none => rfl
    | some m =>
      show (drain n (execCall m s)).now = s.now
      rw [ih (execCall m s)]
      simp only [execCall]
      rw [runAct_now]

lemma drain_executed_mono (fuel : Nat) :
    ∀ (s : ClockState) (e : ℚ × Nat),
      e ∈ s.executed → e ∈ (drain fuel s).executed := by
  induction fuel with
  | zero => intro s e he; exact he
  | succ n ih =>
    intro s e he
    simp only [drain]
    cases h : pickMin (dueList s) with
    | none => exact he
    | some m =>
      show e ∈ (drain n (execCall m s)).executed
      apply ih
      simp only [execCall]
      rw [runAct_executed]
      exact List.mem_append_left _ he

lemma drain_pending_cover (fuel : Nat) :
    ∀ (s : ClockState) (c : ScheduledCall), c ∈ s.pending →
      c ∈ (drain fuel s).pending ∨
        (c.fireTime, c.seq) ∈ (drain fuel s).executed := by
  induction fuel with
  | zero => intro s c hc; exact Or.inl hc
  | succ n ih =>
    intro s c hc
    simp only [drain]
    cases h : pickMin (dueList s) with
    | none => exact Or.inl hc
    | some m =>
      by_cases hcm : c = m
      · right
        apply drain_executed_mono
        subst hcm
        simp only [execCall]
        rw [runAct_executed]
        exact List.mem_append_right _ (List.mem_singleton_self _)
      · have hce : c ∈ s.pending.erase m := (List.mem_erase_of_ne hcm).mpr hc
        have hcp : c ∈ (execCall m s).pending := by
          simp only [execCall]
          exact runAct_pending_super m.action _ c hce
        exact ih (execCall m s) c hcp

lemma drain_quiescent (fuel : Nat) :
    ∀ s : ClockState, clockMeasure s ≤ fuel →
      pickMin (dueList (drain fuel s)) = none := by
  induction fuel with
  | zero =>
    intro s h
    have h0 : clockMeasure s = 0 := Nat.le_zero.mp h
    show pickMin (dueList s) = none
    cases hp : s.pending with
    | nil =>
      have hdue : dueList s = [] := by simp [dueList, hp]
      rw [hdue]
      rfl
    | cons c cs =>
      exfalso
      have h1 := actSize_pos c.action
      simp only [clockMeasure, hp, List.map_cons, List.sum_cons] at h0
      omega
  | succ n ih =>
    intro s h
    simp only [drain]
    cases hm : pickMin (dueList s) with
    | none => exact hm
    | some m =>
      show pickMin (dueList (drain n (execCall m s))) = none
      apply ih
      have := clockMeasure_execCall_lt s m hm
      omega

/-! Helper lemmas establishing the clock invariant on every reachable state
and its preservation by the drain loop. -/

lemma pairLe_of_not_keyLt {c m : ScheduledCall} (h : ¬ keyLt c m) :
    pairLe (m.fireTime, m.seq) (c.fireTime, c.seq) := by
  unfold keyLt at h
  push_neg at h
  rcases lt_trichotomy m.fireTime c.fireTime with h1 | h1 | h1
  · exact Or.inl h1
  · refine Or.inr ⟨h1, ?_⟩
    have := h.2 h1.symm
    omega
  · exact absurd h1 (not_lt.mpr h.1)

lemma execCall_inv (s : ClockState) (m : ScheduledCall)
    (hm : pickMin (dueList s) = some m) (hinv : ClockInv s) :
    ClockInv (execCall m s) := by
  obtain ⟨i1, i2, i3, i4⟩ := hinv
  have hmdue := (mem_dueList s m).mp (pickMin_mem hm)
  have hmin := pickMin_min hm
  show ClockInv (runAct m.action
    { s with pending := s.pending.erase m,
             executed := s.executed ++ [(m.fireTime, m.seq)] })
  refine ⟨?_, ?_, ?_, ?_⟩
  · rw [runAct_executed]
    show List.Pairwise pairLe (s.executed ++ [(m.fireTime, m.seq)])
    rw [List.pairwise_append]
    refine ⟨i1, List.pairwise_singleton _ _, ?_⟩
    intro e he f hf
    rw [List.mem_singleton] at hf
    subst hf
    exact i4 e he m hmdue.1 hmdue.2.1 hmdue.2.2
  · intro e he
    rw [runAct_executed] at he
    have hle : s.nextSeq ≤ (runAct m.action
        { s with pending := s.pending.erase m,
                 executed := s.executed ++ [(m.fireTime, m.seq)] }).nextSeq :=
      runAct_nextSeq_le m.action
        { s with pending := s.pending.erase m,
                 executed := s.executed ++ [(m.fireTime, m.seq)] }
    rcases List.mem_append.mp he with he | he
    · obtain ⟨h1, h2⟩ := i2 e he
      constructor
      · rw [runAct_now]
        exact h1
      · exact lt_of_lt_of_le h2 hle
    · rw [List.mem_singleton] at he
      subst he
      constructor
      · rw [runAct_now]
        exact hmdue.2.2
      · exact lt_of_lt_of_le (i3 m hmdue.1) hle
  · apply runAct_seq_bound
    intro c hc
    exact i3 c (List.mem_of_mem_erase hc)
  · intro e he c hc hcanc hdue
    rw [runAct_executed] at he
    have hcc := runAct_pending_cases m.action _ c hc
    rw [runAct_now] at hdue
    rcases List.mem_append.mp he with he | he
    · rcases hcc with h1 | h1
      · exact i4 e he c (List.mem_of_mem_erase h1) hcanc hdue
      · have hfe : c.fireTime = s.now := le_antisymm hdue h1.2.1
        obtain ⟨h2, h3⟩ := i2 e he
        rcases lt_or_eq_of_le h2 with hlt | heq
        · refine Or.inl ?_
          rw [hfe]
          exact hlt
        · refine Or.inr ⟨?_, ?_⟩
          · rw [hfe]
            exact heq
          · have h4 : s.nextSeq ≤ c.seq := h1.1
            omega
    · rw [List.mem_singleton] at he
      subst he
      rcases hcc with h1 | h1
      · have hcp := List.mem_of_mem_erase h1
        have hcd : c ∈ dueList s := (mem_dueList s c).mpr ⟨hcp, hcanc, hdue⟩
        exact pairLe_of_not_keyLt (hmin c hcd)
      · have hfe : c.fireTime = s.now := le_antisymm hdue h1.2.1
        rcases lt_or_eq_of_le hmdue.2.2 with hlt | heq
        · refine Or.inl ?_
          rw [hfe]
          exact hlt
        · refine Or.inr ⟨?_, ?_⟩
          · rw [hfe]
            exact heq
          · have h4 := i3 m hmdue.1
            have h5 : s.nextSeq ≤ c.seq := h1.1
            omega

lemma drain_inv (fuel : Nat) :
    ∀ s : ClockState, ClockInv s → ClockInv (drain fuel s) := by
  induction fuel with
  | zero => intro s h; exact h
  | succ n ih =>
    intro s h
    simp only [drain]
    cases hm : pickMin (dueList s) with
    | none => exact h
    | some m =>
      show ClockInv (drain n (execCall m s))
      exact ih _ (execCall_inv s m hm h)

lemma ClockInv_shift (s : ClockState) (d : ℚ) (hd : 0 ≤ d)
    (hinv : ClockInv s) : ClockInv { s with now := s.now + d } := by
  obtain ⟨i1, i2, i3, i4⟩ := hinv
  refine ⟨i1, ?_, i3, ?_⟩
  · intro e he
    obtain ⟨h1, h2⟩ := i2 e he
    refine ⟨?_, h2⟩
    show e.1 ≤ s.now + d
    linarith
  · intro e he c hc hcanc hdue
    by_cases hcd : c.fireTime ≤ s.now
    · exact i4 e he c hc hcanc hcd
    · push_neg at hcd
      exact Or.inl (lt_of_le_of_lt (i2 e he).1 hcd)

lemma ClockInv_scheduleAfter (s : ClockState) (d : ℚ) (a : Act)
    (hinv : ClockInv s) (hd : ¬ d < 0) :
    ClockInv
      { s with
          pending := s.pending ++ [⟨s.now + d, s.nextSeq, a, false⟩],
          nextSeq := s.nextSeq + 1 } := by
  obtain ⟨i1, i2, i3, i4⟩ := hinv
  have hd0 : 0 ≤ d := not_lt.mp hd
  refine ⟨i1, ?_, ?_, ?_⟩
  · intro e he
    obtain ⟨h1, h2⟩ := i2 e he
    refine ⟨h1, ?_⟩
    show e.2 < s.nextSeq + 1
    omega
  · intro c hc
    rcases List.mem_append.mp hc with hc | hc
    · have := i3 c hc
      show c.seq < s.nextSeq + 1
      omega
    · rw [List.mem_singleton] at hc
      subst hc
      exact Nat.lt_succ_self _
  · intro e he c hc hcanc hdue
    rcases List.mem_append.mp hc with hc | hc
    · exact i4 e he c hc hcanc hdue
    · rw [List.mem_singleton] at hc
      subst hc
      have hfe : s.now + d = s.now := le_antisymm hdue (by linarith)
      obtain ⟨h1, h2⟩ := i2 e he
      rcases lt_or_eq_of_le h1 with hlt | heq
      · refine Or.inl ?_
        show e.1 < s.now + d
        rw [hfe]
        exact hlt
      · refine Or.inr ⟨?_, ?_⟩
        · show e.1 = s.now + d
          rw [hfe]
          exact heq
        · show e.2 ≤ s.nextSeq
          exact le_of_lt h2

lemma ClockInv_cancel (s : ClockState) (h : Nat) (hinv : ClockInv s) :
    ClockInv (cancelCall h s) := by
  obtain ⟨i1, i2, i3, i4⟩ := hinv
  refine ⟨i1, i2, ?_, ?_⟩
  · intro c hc
    rcases List.mem_map.mp hc with ⟨c0, hc0, hee⟩
    by_cases hs : c0.seq = h
    · rw [if_pos hs] at hee
      subst hee
      exact i3 c0 hc0
    · rw [if_neg hs] at hee
      subst hee
      exact i3 c0 hc0
  · intro e he c hc hcanc hdue
    rcases List.mem_map.mp hc with ⟨c0, hc0, hee⟩
    by_cases hs : c0.seq = h
    · rw [if_pos hs] at hee
      subst hee
      exact absurd hcanc (by simp)
    · rw [if_neg hs] at hee
      subst hee
      exact i4 e he c0 hc0 hcanc hdue

lemma ClockInv_init : ClockInv initClock :=
  ⟨List.Pairwise.nil,
   fun e he => absurd he (List.not_mem_nil e),
   fun c hc => absurd hc (List.not_mem_nil c),
   fun e he => absurd he (List.not_mem_nil e)⟩

lemma ClockInv_applyClockOp (s : ClockState) (op : ClockOp)
    (hinv : ClockInv s) : ClockInv (applyClockOp s op) := by
  cases op with
  | schedOp d a =>
    simp only [applyClockOp]
    cases hcall : scheduleAfter d a s with
    | ok p =>
      by_cases hd : d < 0
      · simp [scheduleAfter, hd] at hcall
      · unfold scheduleAfter at hcall
        rw [if_neg hd] at hcall
        injection hcall with h'
        rw [← h']
        exact ClockInv_scheduleAfter s d a hinv hd
    | error er => exact hinv
  | cancelOp h => exact ClockInv_cancel s h hinv
  | advOp d =>
    simp only [applyClockOp]
    cases hcall : advance d s with
    | ok t =>
      by_cases hd : d < 0
      · simp [advance, hd] at hcall
      · unfold advance at hcall
        rw [if_neg hd] at hcall
        injection hcall with h'
        rw [← h']
        exact drain_inv _ _ (ClockInv_shift s d (not_lt.mp hd) hinv)
    | error er => exact hinv

lemma ClockInv_reachable (ops : List ClockOp) :
    ClockInv (applyClockOps ops) := by
  have hgen : ∀ (l : List ClockOp) (s : ClockState),
      ClockInv s → ClockInv (l.foldl applyClockOp s) := by
    intro l
    induction l with
    | nil => intro s h; exact h
    | cons op rest ih =>
      intro s h
      exact ih _ (ClockInv_applyClockOp s op h)
  exact hgen ops initClock ClockInv_init

/-- C3: for every sequence of driver operations and every non-negative
duration, a successful `advance` leaves no non-cancelled call due at or
before the new `now` pending (it is a fixed-point drain: calls scheduled by
executing callbacks at or before `now` are executed within the same
`advance`); the executed log is ordered by non-decreasing
`(fireTime, sequence)` key, ties broken by scheduling order; and every
non-cancelled call that was pending and due at or before the new `now` has
been executed (its key appears in the executed log). -/
theorem advance_fixed_point_drain (ops : List ClockOp) (d : ℚ)
    (hd : 0 ≤ d) (s' : ClockState)
    (h : advance d (applyClockOps ops) = Except.ok s') :
    (∀ c ∈ s'.pending, c.cancelled = false → s'.now < c.fireTime) ∧
    List.Pairwise pairLe s'.executed ∧
    (∀ c ∈ (applyClockOps ops).pending, c.cancelled = false →
      c.fireTime ≤ (applyClockOps ops).now + d →
      (c.fireTime, c.seq) ∈ s'.executed) := by
  have hnd : ¬ d < 0 := not_lt.mpr hd
  unfold advance at h
  rw [if_neg hnd] at h
  injection h with h'
  have hq : pickMin (dueList (drain
      (clockMeasure
        { applyClockOps ops with now := (applyClockOps ops).now + d })
      { applyClockOps ops with
          now := (applyClockOps ops).now + d })) = none :=
    drain_quiescent _ _ (le_refl _)
  rw [h'] at hq
  have hqlist : dueList s' = [] := (pickMin_eq_none_iff _).mp hq
  have hquiesc : ∀ c ∈ s'.pending, c.cancelled = false →
      s'.now < c.fireTime := by
    intro c hc hcanc
    by_contra hnot
    push_neg at hnot
    have hmem : c ∈ dueList s' := (mem_dueList s' c).mpr ⟨hc, hcanc, hnot⟩
    rw [hqlist] at hmem
    exact absurd hmem (List.not_mem_nil c)
  refine ⟨hquiesc, ?_, ?_⟩
  · have hinv := drain_inv
      (clockMeasure
        { applyClockOps ops with now := (applyClockOps ops).now + d })
      { applyClockOps ops with now := (applyClockOps ops).now + d }
      (ClockInv_shift (applyClockOps ops) d hd (ClockInv_reachable ops))
    rw [h'] at hinv
    exact hinv.1
  · intro c hc hcanc hdue
    have hc1 : c ∈ ({ applyClockOps ops with
        now := (applyClockOps ops).now + d } : ClockState).pending := hc
    have hcover := drain_pending_cover
      (clockMeasure
        { applyClockOps ops with now := (applyClockOps ops).now + d })
      { applyClockOps ops with now := (applyClockOps ops).now + d }
      c hc1
    rw [h'] at hcover
    rcases hcover with h2 | h2
    · exfalso
      have hsnow : s'.now = (applyClockOps ops).now + d := by
        rw [← h']
        exact drain_now _ _
      have h3 := hquiesc c h2 hcanc
      rw [hsnow] at h3
      linarith
    · exact h2

theorem advance_fixed_point_drain_witness :
    (0 : ℚ) ≤ 0 ∧
    advance 0 (applyClockOps clockWitOps) = Except.ok clockWitState ∧
    List.Pairwise pairLe clockWitState.executed :=
  ⟨le_refl 0,
   by
     unfold advance
     rw [if_neg (by norm_num : ¬ (0 : ℚ) < 0)]
     rfl,
   (advance_fixed_point_drain clockWitOps 0 (le_refl 0) clockWitState
     (by
       unfold advance
       rw [if_neg (by norm_num : ¬ (0 : ℚ) < 0)]
       rfl)).2.1⟩
